import Mathlib

/-!
Shallow embedding of the `nodes` crate (files `src/node.rs` and `src/repo.rs`).

Modelling conventions:
* `usize` node ids are modelled as `Nat` (`NodeId` is a newtype over `usize`
  whose `From` conversions are the identity, so we use `Nat` directly).
* `HashSet<String>` tag sets are modelled as `Finset String` (set semantics:
  no duplicates, order irrelevant; the code only queries membership).
* `HashMap<usize, Node>` is modelled as an association list together with
  first-match lookup; `insert` removes any previous binding for the key and
  conses the new one, matching the overwrite semantics of `HashMap::insert`.
* `Result<T, NodeRepoError>` is modelled as `Except NodeRepoError T`.
* The `Vec` used as the traversal work list pushes and pops at the back; we
  represent it reversed, so the Lean list head is the top of the stack and
  `extend_from_slice(&e)` becomes `e.reverse ++ rest`.
* `println!` output of `bfs_dump` is modelled as the returned list of the
  nodes it dumps, in print order.
-/

namespace Nodes

abbrev NodeId := Nat

/-- Error type `NodeRepoError` from `repo.rs`. -/
inductive NodeRepoError where
  | UnknownNodeId (id : NodeId)
  | Unknown
deriving DecidableEq, Repr

/-- Type `Content` from `node.rs`: edge container or leaf payload. -/
inductive Content where
  | Edges (edges : List NodeId)
  | String (s : String)
  | Path (p : String)
deriving DecidableEq, Repr

/-- Type `Node` from `node.rs`. -/
structure Node where
  id : NodeId
  tags : Finset String
  content : Content
deriving DecidableEq

/-- Constructor `Node::new` from `node.rs` (lines 43-51): takes only an id and content,
and always sets the tag set to empty. -/
def Node.new (id : Nat) (content : Content) : Node :=
  { id := id, tags := ∅, content := content }

/-- Type `HashMapRepo` from `repo.rs`. -/
structure HashMapRepo where
  root : NodeId
  repo : List (NodeId × Node)
deriving DecidableEq

/-- Constructor `HashMapRepo::new`: root id 0, empty map. -/
def HashMapRepo.new : HashMapRepo :=
  { root := 0, repo := [] }

/-- Operation `HashMapRepo::get`: map lookup, always `Ok`. -/
def HashMapRepo.get (r : HashMapRepo) (id : NodeId) :
    Except NodeRepoError (Option Node) :=
  .ok (List.lookup id r.repo)

/-- The state update performed by `HashMapRepo::put` (`self.repo.insert`):
the previous binding for the key, if any, is replaced wholesale. -/
def HashMapRepo.putState (r : HashMapRepo) (n : Node) : HashMapRepo :=
  { r with repo := (n.id, n) :: r.repo.filter (fun p => p.1 != n.id) }

/-- Operation `HashMapRepo::put`: stores the node, always `Ok`. -/
def HashMapRepo.put (r : HashMapRepo) (n : Node) :
    Except NodeRepoError HashMapRepo :=
  .ok (r.putState n)

/-- A sequence of `put` calls starting from state `r` (how all callers in the
crate build their repositories). -/
def HashMapRepo.putList (r : HashMapRepo) : List Node → HashMapRepo
  | [] => r
  | n :: ns => (r.putState n).putList ns

/-- Function `create_match_tag_filter` from `repo.rs`: true iff `tag` is a member of
the node's tag set (`tags.get(&t).is_some()`). -/
def create_match_tag_filter (tag : String) : Finset String → Bool :=
  fun tags => decide (tag ∈ tags)

/-- Function `create_accept_all_filter` from `repo.rs`: true for any set of tags. -/
def create_accept_all_filter : Finset String → Bool :=
  fun _ => true

/-- Keys of the stored map (used only for the termination measure). -/
def keys (repo : List (NodeId × Node)) : List NodeId :=
  repo.map (fun p => p.1)

/-- Number of edges listed by a content value (termination measure only). -/
def contentEdgeCount : Content → Nat
  | .Edges es => es.length
  | _ => 0

/-- Total number of edge entries stored in the map (termination measure). -/
def edgesTotal (repo : List (NodeId × Node)) : Nat :=
  (repo.map (fun p => contentEdgeCount p.2.content)).sum

theorem lookup_mem {repo : List (NodeId × Node)} {id : NodeId} {n : Node}
    (h : List.lookup id repo = some n) : (id, n) ∈ repo := by
  induction repo with
  | nil => simp [List.lookup] at h
  | cons p ps ih =>
    obtain ⟨k, v⟩ := p
    rw [List.lookup] at h
    by_cases hk : id == k
    · simp only [hk] at h
      simp only [Option.some.injEq] at h
      have hk' : id = k := by simpa using hk
      subst hk'
      subst h
      exact List.mem_cons_self _ _
    · simp only [Bool.not_eq_true] at hk
      simp only [hk] at h
      exact List.mem_cons_of_mem _ (ih h)

theorem lookup_mem_keys {repo : List (NodeId × Node)} {id : NodeId} {n : Node}
    (h : List.lookup id repo = some n) : id ∈ keys repo := by
  have := lookup_mem h
  simp [keys]
  exact ⟨n, this⟩

theorem lookup_edges_le {repo : List (NodeId × Node)} {id : NodeId} {n : Node}
    (h : List.lookup id repo = some n) :
    contentEdgeCount n.content ≤ edgesTotal repo := by
  have hm : contentEdgeCount n.content ∈
      repo.map (fun p => contentEdgeCount p.2.content) :=
    List.mem_map.mpr ⟨(id, n), lookup_mem h, rfl⟩
  exact List.single_le_sum (fun _ _ => Nat.zero_le _) _ hm

theorem card_sdiff_insert_lt {repo : List (NodeId × Node)}
    {visited : List NodeId} {id : NodeId}
    (hk : id ∈ keys repo) (hv : ¬ id ∈ visited) :
    (((keys repo).toFinset \ (id :: visited).toFinset).card <
      ((keys repo).toFinset \ visited.toFinset).card) := by
  rw [List.toFinset_cons, Finset.sdiff_insert]
  apply Finset.card_erase_lt_of_mem
  rw [Finset.mem_sdiff]
  exact ⟨List.mem_toFinset.mpr hk, fun h => hv (List.mem_toFinset.mp h)⟩

theorem card_sdiff_insert_le (repo : List (NodeId × Node))
    (visited : List NodeId) (id : NodeId) :
    (((keys repo).toFinset \ (id :: visited).toFinset).card ≤
      ((keys repo).toFinset \ visited.toFinset).card) := by
  apply Finset.card_le_card
  apply Finset.sdiff_subset_sdiff (le_refl _)
  rw [List.toFinset_cons]
  exact Finset.subset_insert _ _

theorem measure_dec_edges {c' c e el rl : Nat} (hlt : c' < c) (hle : el ≤ e) :
    c' * (e + 1) + (el + rl) < c * (e + 1) + (rl + 1) := by
  have h1 : (c' + 1) * (e + 1) ≤ c * (e + 1) :=
    Nat.mul_le_mul_right _ (Nat.succ_le_of_lt hlt)
  rw [Nat.succ_mul] at h1
  linarith

theorem measure_dec_leaf {c' c e rl : Nat} (hle : c' ≤ c) :
    c' * (e + 1) + rl < c * (e + 1) + (rl + 1) := by
  have h1 : c' * (e + 1) ≤ c * (e + 1) := Nat.mul_le_mul_right _ hle
  linarith

/-- The loop of the trait default method `NodeRepo::traverse` (`repo.rs`
lines 36-57), specialised to `HashMapRepo` (the crate's only impl, whose
`get` never returns an error).  `stack` is the `Vec` work list reversed
(head = top), `visited` the `HashSet` of already-processed ids, `content`
the accumulated output. -/
def traverseAux (repo : List (NodeId × Node)) (filter : Finset String → Bool)
    (stack : List NodeId) (visited : List NodeId) (content : List Content) :
    Except NodeRepoError (List Content) :=
  match stack with
  | [] => .ok content
  | id :: rest =>
    if hvis : id ∈ visited then
      traverseAux repo filter rest visited content
    else
      match hl : List.lookup id repo with
      | some n =>
        match hc : n.content with
        | .Edges e =>
          traverseAux repo filter (e.reverse ++ rest) (id :: visited) content
        | .String s =>
          traverseAux repo filter rest (id :: visited)
            (if filter n.tags then content ++ [.String s] else content)
        | .Path p =>
          traverseAux repo filter rest (id :: visited)
            (if filter n.tags then content ++ [.Path p] else content)
      | none => .error (.UnknownNodeId id)
termination_by
  ((keys repo).toFinset \ visited.toFinset).card * (edgesTotal repo + 1)
    + stack.length
decreasing_by
  · simp only [List.length_cons]
    exact Nat.add_lt_add_left (Nat.lt_succ_self _) _
  · have hk := lookup_mem_keys hl
    have hlt := card_sdiff_insert_lt hk hvis
    have hle : e.length ≤ edgesTotal repo := by
      have h' := lookup_edges_le hl
      rw [hc] at h'
      simpa [contentEdgeCount] using h'
    simp only [List.length_append, List.length_reverse, List.length_cons]
    exact measure_dec_edges hlt hle
  · have hk := lookup_mem_keys hl
    have hlt := card_sdiff_insert_lt hk hvis
    simp only [List.length_cons]
    exact measure_dec_leaf (Nat.le_of_lt hlt)
  · have hk := lookup_mem_keys hl
    have hlt := card_sdiff_insert_lt hk hvis
    simp only [List.length_cons]
    exact measure_dec_leaf (Nat.le_of_lt hlt)

/-- Method `NodeRepo::traverse` as invoked on a `HashMapRepo`: work list starts as
`vec![self.root()]`, visited set and output start empty. -/
def HashMapRepo.traverse (r : HashMapRepo) (filter : Finset String → Bool) :
    Except NodeRepoError (List Content) :=
  traverseAux r.repo filter [r.root] [] []

/-- The loop of `NodeRepo::bfs_dump` (`repo.rs` lines 63-83), specialised to
`HashMapRepo`.  The `println!` observations are modelled as the returned
list of dumped nodes.  Note the structure of the source: the `else` branch
returning `Err(UnknownNodeId(id))` is attached to the *visited check*, and a
failed `get` is silently skipped. -/
def bfsDumpAux (repo : List (NodeId × Node)) (stack : List NodeId)
    (visited : List NodeId) (out : List Node) :
    Except NodeRepoError (List Node) :=
  match stack with
  | [] => .ok out
  | id :: rest =>
    if hvis : id ∈ visited then
      .error (.UnknownNodeId id)
    else
      match hl : List.lookup id repo with
      | some n =>
        match hc : n.content with
        | .Edges e =>
          bfsDumpAux repo (e.reverse ++ rest) (id :: visited) (out ++ [n])
        | .String _ => bfsDumpAux repo rest (id :: visited) (out ++ [n])
        | .Path _ => bfsDumpAux repo rest (id :: visited) (out ++ [n])
      | none => bfsDumpAux repo rest (id :: visited) out
termination_by
  ((keys repo).toFinset \ visited.toFinset).card * (edgesTotal repo + 1)
    + stack.length
decreasing_by
  · have hk := lookup_mem_keys hl
    have hlt := card_sdiff_insert_lt hk hvis
    have hle : e.length ≤ edgesTotal repo := by
      have h' := lookup_edges_le hl
      rw [hc] at h'
      simpa [contentEdgeCount] using h'
    simp only [List.length_append, List.length_reverse, List.length_cons]
    exact measure_dec_edges hlt hle
  · have hk := lookup_mem_keys hl
    have hlt := card_sdiff_insert_lt hk hvis
    simp only [List.length_cons]
    exact measure_dec_leaf (Nat.le_of_lt hlt)
  · have hk := lookup_mem_keys hl
    have hlt := card_sdiff_insert_lt hk hvis
    simp only [List.length_cons]
    exact measure_dec_leaf (Nat.le_of_lt hlt)
  · have hle := card_sdiff_insert_le repo visited id
    simp only [List.length_cons]
    exact measure_dec_leaf hle

/-- Method `NodeRepo::bfs_dump` as invoked on a `HashMapRepo`. -/
def HashMapRepo.bfsDump (r : HashMapRepo) : Except NodeRepoError (List Node) :=
  bfsDumpAux r.repo [r.root] [] []

/-- Trace-instrumented copy of `traverseAux`: additionally records, in
order, every id that gets processed (inserted into the visited set and
looked up).  Used to state that `traverse` processes each id at most once;
`traverseAuxT_fst` proves it computes exactly what `traverseAux` does. -/
def traverseAuxT (repo : List (NodeId × Node)) (filter : Finset String → Bool)
    (stack : List NodeId) (visited : List NodeId) (content : List Content)
    (trace : List NodeId) :
    Except NodeRepoError (List Content) × List NodeId :=
  match stack with
  | [] => (.ok content, trace)
  | id :: rest =>
    if hvis : id ∈ visited then
      traverseAuxT repo filter rest visited content trace
    else
      match hl : List.lookup id repo with
      | some n =>
        match hc : n.content with
        | .Edges e =>
          traverseAuxT repo filter (e.reverse ++ rest) (id :: visited) content
            (trace ++ [id])
        | .String s =>
          traverseAuxT repo filter rest (id :: visited)
            (if filter n.tags then content ++ [.String s] else content)
            (trace ++ [id])
        | .Path p =>
          traverseAuxT repo filter rest (id :: visited)
            (if filter n.tags then content ++ [.Path p] else content)
            (trace ++ [id])
      | none => (.error (.UnknownNodeId id), trace ++ [id])
termination_by
  ((keys repo).toFinset \ visited.toFinset).card * (edgesTotal repo + 1)
    + stack.length
decreasing_by
  · simp only [List.length_cons]
    exact Nat.add_lt_add_left (Nat.lt_succ_self _) _
  · have hk := lookup_mem_keys hl
    have hlt := card_sdiff_insert_lt hk hvis
    have hle : e.length ≤ edgesTotal repo := by
      have h' := lookup_edges_le hl
      rw [hc] at h'
      simpa [contentEdgeCount] using h'
    simp only [List.length_append, List.length_reverse, List.length_cons]
    exact measure_dec_edges hlt hle
  · have hk := lookup_mem_keys hl
    have hlt := card_sdiff_insert_lt hk hvis
    simp only [List.length_cons]
    exact measure_dec_leaf (Nat.le_of_lt hlt)
  · have hk := lookup_mem_keys hl
    have hlt := card_sdiff_insert_lt hk hvis
    simp only [List.length_cons]
    exact measure_dec_leaf (Nat.le_of_lt hlt)

/-- Runs `traverse` with its processing trace. -/
def HashMapRepo.traverseT (r : HashMapRepo) (filter : Finset String → Bool) :
    Except NodeRepoError (List Content) × List NodeId :=
  traverseAuxT r.repo filter [r.root] [] [] []

section StepLemmas

variable {repo : List (NodeId × Node)} {f : Finset String → Bool}
variable {id : NodeId} {visited : List NodeId} {n : Node}

theorem traverseAux_nil (v c) : traverseAux repo f [] v c = .ok c := by
  rw [traverseAux.eq_def]

theorem traverseAux_visited (hvis : id ∈ visited) (rest c) :
    traverseAux repo f (id :: rest) visited c =
      traverseAux repo f rest visited c := by
  rw [traverseAux.eq_def]
  simp only [dif_pos hvis]

theorem traverseAux_none (hvis : id ∉ visited)
    (hl : List.lookup id repo = none) (rest c) :
    traverseAux repo f (id :: rest) visited c =
      .error (.UnknownNodeId id) := by
  rw [traverseAux.eq_def]
  simp only [dif_neg hvis]
  split
  · rename_i n' heq
    rw [hl] at heq
    cases heq
  · rfl

theorem traverseAux_edges (hvis : id ∉ visited)
    (hl : List.lookup id repo = some n) {e : List NodeId}
    (hc : n.content = .Edges e) (rest c) :
    traverseAux repo f (id :: rest) visited c =
      traverseAux repo f (e.reverse ++ rest) (id :: visited) c := by
  rw [traverseAux.eq_def]
  simp only [dif_neg hvis]
  split
  · rename_i n' heq
    rw [hl] at heq
    injection heq with heq
    subst heq
    split
    · rename_i e' heq2
      rw [hc] at heq2
      injection heq2 with heq2
      subst heq2
      rfl
    · rename_i s' heq2
      rw [hc] at heq2
      cases heq2
    · rename_i p' heq2
      rw [hc] at heq2
      cases heq2
  · rename_i heq
    rw [hl] at heq
    cases heq

theorem traverseAux_string (hvis : id ∉ visited)
    (hl : List.lookup id repo = some n) {s : String}
    (hc : n.content = .String s) (rest c) :
    traverseAux repo f (id :: rest) visited c =
      traverseAux repo f rest (id :: visited)
        (if f n.tags then c ++ [.String s] else c) := by
  rw [traverseAux.eq_def]
  simp only [dif_neg hvis]
  split
  · rename_i n' heq
    rw [hl] at heq
    injection heq with heq
    subst heq
    split
    · rename_i e' heq2
      rw [hc] at heq2
      cases heq2
    · rename_i s' heq2
      rw [hc] at heq2
      injection heq2 with heq2
      subst heq2
      rfl
    · rename_i p' heq2
      rw [hc] at heq2
      cases heq2
  · rename_i heq
    rw [hl] at heq
    cases heq

theorem traverseAux_path (hvis : id ∉ visited)
    (hl : List.lookup id repo = some n) {p : String}
    (hc : n.content = .Path p) (rest c) :
    traverseAux repo f (id :: rest) visited c =
      traverseAux repo f rest (id :: visited)
        (if f n.tags then c ++ [.Path p] else c) := by
  rw [traverseAux.eq_def]
  simp only [dif_neg hvis]
  split
  · rename_i n' heq
    rw [hl] at heq
    injection heq with heq
    subst heq
    split
    · rename_i e' heq2
      rw [hc] at heq2
      cases heq2
    · rename_i s' heq2
      rw [hc] at heq2
      cases heq2
    · rename_i p' heq2
      rw [hc] at heq2
      injection heq2 with heq2
      subst heq2
      rfl
  · rename_i heq
    rw [hl] at heq
    cases heq

theorem traverseAuxT_nil (v c t) :
    traverseAuxT repo f [] v c t = (.ok c, t) := by
  rw [traverseAuxT.eq_def]

theorem traverseAuxT_visited (hvis : id ∈ visited) (rest c t) :
    traverseAuxT repo f (id :: rest) visited c t =
      traverseAuxT repo f rest visited c t := by
  rw [traverseAuxT.eq_def]
  simp only [dif_pos hvis]

theorem traverseAuxT_none (hvis : id ∉ visited)
    (hl : List.lookup id repo = none) (rest c t) :
    traverseAuxT repo f (id :: rest) visited c t =
      (.error (.UnknownNodeId id), t ++ [id]) := by
  rw [traverseAuxT.eq_def]
  simp only [dif_neg hvis]
  split
  · rename_i n' heq
    rw [hl] at heq
    cases heq
  · rfl

theorem traverseAuxT_edges (hvis : id ∉ visited)
    (hl : List.lookup id repo = some n) {e : List NodeId}
    (hc : n.content = .Edges e) (rest c t) :
    traverseAuxT repo f (id :: rest) visited c t =
      traverseAuxT repo f (e.reverse ++ rest) (id :: visited) c (t ++ [id]) := by
  rw [traverseAuxT.eq_def]
  simp only [dif_neg hvis]
  split
  · rename_i n' heq
    rw [hl] at heq
    injection heq with heq
    subst heq
    split
    · rename_i e' heq2
      rw [hc] at heq2
      injection heq2 with heq2
      subst heq2
      rfl
    · rename_i s' heq2
      rw [hc] at heq2
      cases heq2
    · rename_i p' heq2
      rw [hc] at heq2
      cases heq2
  · rename_i heq
    rw [hl] at heq
    cases heq

theorem traverseAuxT_string (hvis : id ∉ visited)
    (hl : List.lookup id repo = some n) {s : String}
    (hc : n.content = .String s) (rest c t) :
    traverseAuxT repo f (id :: rest) visited c t =
      traverseAuxT repo f rest (id :: visited)
        (if f n.tags then c ++ [.String s] else c) (t ++ [id]) := by
  rw [traverseAuxT.eq_def]
  simp only [dif_neg hvis]
  split
  · rename_i n' heq
    rw [hl] at heq
    injection heq with heq
    subst heq
    split
    · rename_i e' heq2
      rw [hc] at heq2
      cases heq2
    · rename_i s' heq2
      rw [hc] at heq2
      injection heq2 with heq2
      subst heq2
      rfl
    · rename_i p' heq2
      rw [hc] at heq2
      cases heq2
  · rename_i heq
    rw [hl] at heq
    cases heq

theorem traverseAuxT_path (hvis : id ∉ visited)
    (hl : List.lookup id repo = some n) {p : String}
    (hc : n.content = .Path p) (rest c t) :
    traverseAuxT repo f (id :: rest) visited c t =
      traverseAuxT repo f rest (id :: visited)
        (if f n.tags then c ++ [.Path p] else c) (t ++ [id]) := by
  rw [traverseAuxT.eq_def]
  simp only [dif_neg hvis]
  split
  · rename_i n' heq
    rw [hl] at heq
    injection heq with heq
    subst heq
    split
    · rename_i e' heq2
      rw [hc] at heq2
      cases heq2
    · rename_i s' heq2
      rw [hc] at heq2
      cases heq2
    · rename_i p' heq2
      rw [hc] at heq2
      injection heq2 with heq2
      subst heq2
      rfl
  · rename_i heq
    rw [hl] at heq
    cases heq

theorem bfsDumpAux_nil (v o) : bfsDumpAux repo [] v o = .ok o := by
  rw [bfsDumpAux.eq_def]

theorem bfsDumpAux_visited (hvis : id ∈ visited) (rest o) :
    bfsDumpAux repo (id :: rest) visited o =
      .error (.UnknownNodeId id) := by
  rw [bfsDumpAux.eq_def]
  simp only [dif_pos hvis]

theorem bfsDumpAux_none (hvis : id ∉ visited)
    (hl : List.lookup id repo = none) (rest o) :
    bfsDumpAux repo (id :: rest) visited o =
      bfsDumpAux repo rest (id :: visited) o := by
  rw [bfsDumpAux.eq_def]
  simp only [dif_neg hvis]
  split
  · rename_i n' heq
    rw [hl] at heq
    cases heq
  · rfl

theorem bfsDumpAux_edges (hvis : id ∉ visited)
    (hl : List.lookup id repo = some n) {e : List NodeId}
    (hc : n.content = .Edges e) (rest o) :
    bfsDumpAux repo (id :: rest) visited o =
      bfsDumpAux repo (e.reverse ++ rest) (id :: visited) (o ++ [n]) := by
  rw [bfsDumpAux.eq_def]
  simp only [dif_neg hvis]
  split
  · rename_i n' heq
    rw [hl] at heq
    injection heq with heq
    subst heq
    split
    · rename_i e' heq2
      rw [hc] at heq2
      injection heq2 with heq2
      subst heq2
      rfl
    · rename_i s' heq2
      rw [hc] at heq2
      cases heq2
    · rename_i p' heq2
      rw [hc] at heq2
      cases heq2
  · rename_i heq
    rw [hl] at heq
    cases heq

theorem bfsDumpAux_string (hvis : id ∉ visited)
    (hl : List.lookup id repo = some n) {s : String}
    (hc : n.content = .String s) (rest o) :
    bfsDumpAux repo (id :: rest) visited o =
      bfsDumpAux repo rest (id :: visited) (o ++ [n]) := by
  rw [bfsDumpAux.eq_def]
  simp only [dif_neg hvis]
  split
  · rename_i n' heq
    rw [hl] at heq
    injection heq with heq
    subst heq
    split
    · rename_i e' heq2
      rw [hc] at heq2
      cases heq2
    · rfl
    · rfl
  · rename_i heq
    rw [hl] at heq
    cases heq

theorem bfsDumpAux_path (hvis : id ∉ visited)
    (hl : List.lookup id repo = some n) {p : String}
    (hc : n.content = .Path p) (rest o) :
    bfsDumpAux repo (id :: rest) visited o =
      bfsDumpAux repo rest (id :: visited) (o ++ [n]) := by
  rw [bfsDumpAux.eq_def]
  simp only [dif_neg hvis]
  split
  · rename_i n' heq
    rw [hl] at heq
    injection heq with heq
    subst heq
    split
    · rename_i e' heq2
      rw [hc] at heq2
      cases heq2
    · rfl
    · rfl
  · rename_i heq
    rw [hl] at heq
    cases heq

end StepLemmas

theorem traverseAuxT_fst (repo : List (NodeId × Node))
    (f : Finset String → Bool) (stack visited : List NodeId)
    (content : List Content) (trace : List NodeId) :
    (traverseAuxT repo f stack visited content trace).1 =
      traverseAux repo f stack visited content := by
  induction stack, visited, content, trace using traverseAuxT.induct repo f with
  | case1 v c t => simp [traverseAuxT_nil, traverseAux_nil]
  | case2 v c t id rest hvis ih =>
    rw [traverseAuxT_visited hvis, traverseAux_visited hvis]
    exact ih
  | case3 v c t id rest hvis n hl e hc ih =>
    rw [traverseAuxT_edges hvis hl hc, traverseAux_edges hvis hl hc]
    exact ih
  | case4 v c t id rest hvis n hl s hc ih =>
    rw [traverseAuxT_string hvis hl hc, traverseAux_string hvis hl hc]
    simp only [dite_eq_ite] at ih
    exact ih
  | case5 v c t id rest hvis n hl p hc ih =>
    rw [traverseAuxT_path hvis hl hc, traverseAux_path hvis hl hc]
    simp only [dite_eq_ite] at ih
    exact ih
  | case6 v c t id rest hvis hl =>
    rw [traverseAuxT_none hvis hl, traverseAux_none hvis hl]

theorem traverseAuxT_snd_nodup (repo : List (NodeId × Node))
    (f : Finset String → Bool) (stack visited : List NodeId)
    (content : List Content) (trace : List NodeId) :
    trace.Nodup → (∀ i ∈ trace, i ∈ visited) →
      ((traverseAuxT repo f stack visited content trace).2).Nodup := by
  induction stack, visited, content, trace using traverseAuxT.induct repo f with
  | case1 v c t =>
    intro hnd _
    simpa [traverseAuxT_nil] using hnd
  | case2 v c t id rest hvis ih =>
    intro hnd hsub
    rw [traverseAuxT_visited hvis]
    exact ih hnd hsub
  | case3 v c t id rest hvis n hl e hc ih =>
    intro hnd hsub
    rw [traverseAuxT_edges hvis hl hc]
    apply ih
    · have hid : id ∉ t := fun hmem => hvis (hsub id hmem)
      simp [List.nodup_append, hnd, hid]
    · intro i hi
      rcases List.mem_append.mp hi with h | h
      · exact List.mem_cons_of_mem _ (hsub i h)
      · simp only [List.mem_singleton] at h
        subst h
        exact List.mem_cons_self _ _
  | case4 v c t id rest hvis n hl s hc ih =>
    intro hnd hsub
    rw [traverseAuxT_string hvis hl hc]
    simp only [dite_eq_ite] at ih
    apply ih
    · have hid : id ∉ t := fun hmem => hvis (hsub id hmem)
      simp [List.nodup_append, hnd, hid]
    · intro i hi
      rcases List.mem_append.mp hi with h | h
      · exact List.mem_cons_of_mem _ (hsub i h)
      · simp only [List.mem_singleton] at h
        subst h
        exact List.mem_cons_self _ _
  | case5 v c t id rest hvis n hl p hc ih =>
    intro hnd hsub
    rw [traverseAuxT_path hvis hl hc]
    simp only [dite_eq_ite] at ih
    apply ih
    · have hid : id ∉ t := fun hmem => hvis (hsub id hmem)
      simp [List.nodup_append, hnd, hid]
    · intro i hi
      rcases List.mem_append.mp hi with h | h
      · exact List.mem_cons_of_mem _ (hsub i h)
      · simp only [List.mem_singleton] at h
        subst h
        exact List.mem_cons_self _ _
  | case6 v c t id rest hvis hl =>
    intro hnd hsub
    rw [traverseAuxT_none hvis hl]
    have hid : id ∉ t := fun hmem => hvis (hsub id hmem)
    simp [List.nodup_append, hnd, hid]

theorem traverseAux_ok_no_edges (repo : List (NodeId × Node))
    (f : Finset String → Bool) (stack visited : List NodeId)
    (content : List Content) :
    (∀ c ∈ content, ∀ es, c ≠ .Edges es) →
      ∀ res, traverseAux repo f stack visited content = .ok res →
        ∀ c ∈ res, ∀ es, c ≠ .Edges es := by
  induction stack, visited, content using traverseAux.induct repo f with
  | case1 v c =>
    intro hacc res hok
    rw [traverseAux_nil] at hok
    injection hok with h
    subst h
    exact hacc
  | case2 v c id rest hvis ih =>
    intro hacc res hok
    rw [traverseAux_visited hvis] at hok
    exact ih hacc res hok
  | case3 v c id rest hvis n hl e hc ih =>
    intro hacc res hok
    rw [traverseAux_edges hvis hl hc] at hok
    exact ih hacc res hok
  | case4 v c id rest hvis n hl s hc ih =>
    intro hacc res hok
    rw [traverseAux_string hvis hl hc] at hok
    simp only [dite_eq_ite] at ih
    apply ih _ res hok
    intro x hx es
    by_cases hb : f n.tags = true
    · simp only [hb, if_true, List.mem_append, List.mem_singleton] at hx
      rcases hx with hx | hx
      · exact hacc x hx es
      · subst hx
        simp
    · simp only [hb, if_false] at hx
      exact hacc x hx es
  | case5 v c id rest hvis n hl p hc ih =>
    intro hacc res hok
    rw [traverseAux_path hvis hl hc] at hok
    simp only [dite_eq_ite] at ih
    apply ih _ res hok
    intro x hx es
    by_cases hb : f n.tags = true
    · simp only [hb, if_true, List.mem_append, List.mem_singleton] at hx
      rcases hx with hx | hx
      · exact hacc x hx es
      · subst hx
        simp
    · simp only [hb, if_false] at hx
      exact hacc x hx es
  | case6 v c id rest hvis hl =>
    intro hacc res hok
    rw [traverseAux_none hvis hl] at hok
    cases hok

theorem traverseAux_filter_congr (repo : List (NodeId × Node))
    (f g : Finset String → Bool)
    (hfg : ∀ id n, List.lookup id repo = some n →
      (∀ es, n.content ≠ .Edges es) → f n.tags = g n.tags)
    (stack visited : List NodeId) (content : List Content) :
    traverseAux repo f stack visited content =
      traverseAux repo g stack visited content := by
  induction stack, visited, content using traverseAux.induct repo f with
  | case1 v c => rw [traverseAux_nil, traverseAux_nil]
  | case2 v c id rest hvis ih =>
    rw [traverseAux_visited hvis, traverseAux_visited hvis]
    exact ih
  | case3 v c id rest hvis n hl e hc ih =>
    rw [traverseAux_edges hvis hl hc, traverseAux_edges (f := g) hvis hl hc]
    exact ih
  | case4 v c id rest hvis n hl s hc ih =>
    have heq : f n.tags = g n.tags := hfg id n hl (by simp [hc])
    rw [traverseAux_string hvis hl hc, traverseAux_string (f := g) hvis hl hc]
    simp only [dite_eq_ite] at ih
    rw [heq] at ih ⊢
    exact ih
  | case5 v c id rest hvis n hl p hc ih =>
    have heq : f n.tags = g n.tags := hfg id n hl (by simp [hc])
    rw [traverseAux_path hvis hl hc, traverseAux_path (f := g) hvis hl hc]
    simp only [dite_eq_ite] at ih
    rw [heq] at ih ⊢
    exact ih
  | case6 v c id rest hvis hl =>
    rw [traverseAux_none hvis hl, traverseAux_none hvis hl]

theorem lookup_none_iff {l : List (NodeId × Node)} {i : NodeId} :
    List.lookup i l = none ↔ ∀ p ∈ l, p.1 ≠ i := by
  induction l with
  | nil => simp [List.lookup]
  | cons x xs ih =>
    obtain ⟨k, v⟩ := x
    rw [List.lookup]
    by_cases hk : i = k
    · subst hk
      simp [ih]
    · have hb : (i == k) = false := by
        simp only [beq_eq_false_iff_ne, ne_eq]
        exact hk
      simp only [hb, ih]
      constructor
      · intro h p hp
        rcases List.mem_cons.mp hp with h1 | h1
        · subst h1
          simp only [ne_eq]
          exact fun he => hk he.symm
        · exact h p h1
      · intro h p hp
        exact h p (List.mem_cons_of_mem _ hp)

theorem putList_lookup_none (ns : List Node) :
    ∀ (r : HashMapRepo) (i : NodeId), List.lookup i r.repo = none →
      (∀ n ∈ ns, n.id ≠ i) → List.lookup i (r.putList ns).repo = none := by
  induction ns with
  | nil =>
    intro r i h _
    exact h
  | cons n ns ih =>
    intro r i h hall
    rw [HashMapRepo.putList]
    apply ih
    · rw [lookup_none_iff]
      intro p hp
      simp only [HashMapRepo.putState] at hp
      rcases List.mem_cons.mp hp with h1 | h1
      · subst h1
        exact hall n (List.mem_cons_self _ _)
      · exact (lookup_none_iff.mp h) p (List.mem_of_mem_filter h1)
    · intro m hm
      exact hall m (List.mem_cons_of_mem _ hm)

theorem putState_get_self (r : HashMapRepo) (n : Node) :
    (r.putState n).get n.id = .ok (some n) := by
  simp [HashMapRepo.get, HashMapRepo.putState, List.lookup]

/-! Concrete graphs used by the counterexamples and witnesses below.  Each
is built by a sequence of `put` calls on a fresh repository, exactly as the
crate's callers do. -/

/-- Root 0 points at edge-container 1, which lists the two leaf strings
"aaa" (id 2) then "bbb" (id 3); all tag sets are empty. -/
def exampleRepo : HashMapRepo :=
  HashMapRepo.new.putList
    [Node.new 1 (.Edges [2, 3]), Node.new 2 (.String "aaa"),
     Node.new 3 (.String "bbb"), Node.new 0 (.Edges [1])]

/-- Root 0 lists an edge to id 1, which was never put (dangling). -/
def danglingRepo : HashMapRepo :=
  HashMapRepo.new.putList [Node.new 0 (.Edges [1])]

/-- Root 0 references the stored leaf node 1 twice. -/
def dupEdgeRepo : HashMapRepo :=
  HashMapRepo.new.putList
    [Node.new 0 (.Edges [1, 1]), Node.new 1 (.String "aaa")]

/-- Root 0 is an edge container carrying tag "e"; node 1 is an untagged
leaf. -/
def taggedEdgeRepo : HashMapRepo :=
  HashMapRepo.new.putList
    [⟨0, {"e"}, .Edges [1]⟩, ⟨1, ∅, .String "leaf"⟩]

/-- C1: the claim states that when either `traverse` or `bfs_dump` pops an
id whose `get` is absent, the call fails immediately with
`UnknownNodeId` carrying that id.  This holds for `traverse` but not for
`bfs_dump`: in `bfs_dump` the `else => Err(UnknownNodeId)` branch is
attached to the visited-set check rather than to the `get` result, so a
dangling id is silently skipped.  Evaluated on a repository whose root
0 lists the never-put id 1: `traverse` fails with `UnknownNodeId(1)` as
claimed, while `bfs_dump` succeeds, dumping only the root. -/
theorem c1_bfs_dump_skips_dangling_id :
    danglingRepo.traverse create_accept_all_filter =
        .error (.UnknownNodeId 1) ∧
      danglingRepo.bfsDump = .ok [Node.new 0 (.Edges [1])] := by
  constructor
  · simp [danglingRepo, HashMapRepo.traverse, HashMapRepo.putList,
      HashMapRepo.putState, HashMapRepo.new, Node.new, traverseAux,
      List.lookup, create_accept_all_filter]
  · simp [danglingRepo, HashMapRepo.bfsDump, HashMapRepo.putList,
      HashMapRepo.putState, HashMapRepo.new, Node.new, bfsDumpAux,
      List.lookup]

/-- C2: the claim states that on a graph whose reachable ids are all
stored, `bfs_dump` succeeds and observes every reachable node exactly once
even when a node is referenced by more than one edge.  The code instead
returns `Err(UnknownNodeId)` the second time an already-visited id is
popped (the misplaced `else` of the visited-set check).  Evaluated on a
repository whose root references the stored leaf 1 twice: `traverse`
succeeds as a baseline, while `bfs_dump` fails reporting the perfectly
well-known id 1. -/
theorem c2_bfs_dump_errors_on_twice_referenced_node :
    dupEdgeRepo.traverse create_accept_all_filter = .ok [.String "aaa"] ∧
      dupEdgeRepo.bfsDump = .error (.UnknownNodeId 1) := by
  constructor
  · simp [dupEdgeRepo, HashMapRepo.traverse, HashMapRepo.putList,
      HashMapRepo.putState, HashMapRepo.new, Node.new, traverseAux,
      List.lookup, create_accept_all_filter]
  · simp [dupEdgeRepo, HashMapRepo.bfsDump, HashMapRepo.putList,
      HashMapRepo.putState, HashMapRepo.new, Node.new, bfsDumpAux,
      List.lookup]

/-- C3 (counterexample): on the claimed graph (root 0 → edge-container 1 →
leaves "aaa" then "bbb") with the accept-all filter, `traverse` does not
return ["aaa", "bbb"]: the work list is a stack, so the later-pushed "bbb"
is popped first. -/
theorem c3_traverse_is_not_push_order :
    exampleRepo.traverse create_accept_all_filter ≠
      .ok [.String "aaa", .String "bbb"] := by
  have h : exampleRepo.traverse create_accept_all_filter =
      .ok [.String "bbb", .String "aaa"] := by
    simp [exampleRepo, HashMapRepo.traverse, HashMapRepo.putList,
      HashMapRepo.putState, HashMapRepo.new, Node.new, traverseAux,
      List.lookup, create_accept_all_filter]
  rw [h]
  simp

/-- C3 (amended): on that graph the accept-all traversal returns exactly
["bbb", "aaa"] — the push order reversed, as dictated by the stack
discipline. -/
theorem c3_traverse_returns_push_order_reversed :
    exampleRepo.traverse create_accept_all_filter =
      .ok [.String "bbb", .String "aaa"] := by
  simp [exampleRepo, HashMapRepo.traverse, HashMapRepo.putList,
    HashMapRepo.putState, HashMapRepo.new, Node.new, traverseAux,
    List.lookup, create_accept_all_filter]

/-- C4: `traverse` terminates on every finite stored graph, cycles
included — it is embedded as a total function, whose termination proof is
the measure `|stored ids not yet visited| * (total edge count + 1) +
|work list|` — and processes each id at most once: the instrumented trace
of processed ids (`traverseT`) has no duplicates and projects to exactly
the result of `traverse`. -/
theorem c4_traverse_terminates_and_processes_each_id_once :
    ∀ (r : HashMapRepo) (f : Finset String → Bool),
      ((r.traverseT f).2).Nodup ∧ (r.traverseT f).1 = r.traverse f := by
  intro r f
  constructor
  · exact traverseAuxT_snd_nodup r.repo f [r.root] [] [] []
      List.nodup_nil (by simp)
  · exact traverseAuxT_fst r.repo f [r.root] [] [] []

/-- C5: the claim states the node constructor takes (id, tags, content)
and deduplicates the supplied tags.  `node.rs`'s `Node::new` takes only
(id, content) — there is no tags parameter at all — and always produces
the empty tag set, while the crate's own tests (`repo.rs`) and binary
(`nodecli.rs`) call the three-argument form.  This theorem evaluates the
constructor that is actually in `node.rs`. -/
theorem c5_node_new_takes_no_tags_and_yields_empty_tag_set :
    ∀ (id : Nat) (content : Content),
      (Node.new id content).tags = ∅ ∧ (Node.new id content).id = id ∧
        (Node.new id content).content = content := by
  intro id content
  exact ⟨rfl, rfl, rfl⟩

/-- C6: after `put(n)`, `get(n.id)` returns `Ok(Some(n))` — for every prior
repository state, so in particular a previous entry under `n.id` is
replaced wholesale and never returned. -/
theorem c6_put_then_get_returns_exactly_the_new_node :
    ∀ (r : HashMapRepo) (n : Node),
      ∃ r', r.put n = .ok r' ∧ r'.get n.id = .ok (some n) := by
  intro r n
  exact ⟨r.putState n, rfl, putState_get_self r n⟩

/-- C7: (1) a successful `traverse` returns no `Edges` variant, and (2)
the filter is only ever applied to tags of leaf-content nodes: two filters
that agree on the tag sets of all stored non-`Edges` nodes produce
identical traversals, whatever they do on edge-container tags. -/
theorem c7_traverse_filters_only_leaves_and_outputs_no_edges :
    ∀ (r : HashMapRepo) (f g : Finset String → Bool) (res : List Content)
      (c : Content),
      (r.traverse f = .ok res → c ∈ res → ∀ es, c ≠ .Edges es) ∧
        ((∀ id n, List.lookup id r.repo = some n →
            (∀ es, n.content ≠ .Edges es) → f n.tags = g n.tags) →
          r.traverse f = r.traverse g) := by
  intro r f g res c
  constructor
  · intro hok hc
    exact traverseAux_ok_no_edges r.repo f [r.root] [] [] (by simp)
      res hok c hc
  · intro hfg
    exact traverseAux_filter_congr r.repo f g hfg [r.root] [] []

/-- C7 witness: on `taggedEdgeRepo`, the accept-all traversal succeeds
with the single leaf, which is not an `Edges` value; and accept-all agrees
with the filter rejecting tag "e" on every stored leaf (both accept the
untagged leaf), so the two traversals coincide even though the filters
disagree on the edge-container's tag set. -/
theorem c7_witness :
    (∀ es, Content.String "leaf" ≠ Content.Edges es) ∧
      taggedEdgeRepo.traverse create_accept_all_filter =
        taggedEdgeRepo.traverse (fun tags => decide ("e" ∉ tags)) := by
  constructor
  · apply (c7_traverse_filters_only_leaves_and_outputs_no_edges
      taggedEdgeRepo create_accept_all_filter create_accept_all_filter
      [Content.String "leaf"] (Content.String "leaf")).1
    · simp [taggedEdgeRepo, HashMapRepo.traverse, HashMapRepo.putList,
        HashMapRepo.putState, HashMapRepo.new, traverseAux, List.lookup,
        create_accept_all_filter]
    · simp
  · apply (c7_traverse_filters_only_leaves_and_outputs_no_edges
      taggedEdgeRepo create_accept_all_filter (fun tags => decide ("e" ∉ tags))
      [] (Content.String "leaf")).2
    intro id n hl hne
    have hm := lookup_mem hl
    simp [taggedEdgeRepo, HashMapRepo.putList, HashMapRepo.putState,
      HashMapRepo.new] at hm
    rcases hm with ⟨h1, h2⟩ | ⟨h1, h2⟩
    · subst h2
      simp [create_accept_all_filter]
    · subst h2
      exact absurd rfl (hne [1])

/-- C8: the accept-all filter returns true on every tag set, and the
match-tag(t) filter returns true exactly when t is a member of the tag
set. -/
theorem c8_filter_constructors :
    ∀ (tags : Finset String) (t : String),
      create_accept_all_filter tags = true ∧
        (create_match_tag_filter t tags = true ↔ t ∈ tags) := by
  intro tags t
  constructor
  · rfl
  · simp [create_match_tag_filter]

/-- C9: `get` of an id never `put` returns `Ok(None)` — absence is the
normal outcome — and `get` never returns an error for any id in any
state. -/
theorem c9_get_absent_is_ok_none_and_get_never_errors :
    (∀ (ns : List Node) (i : NodeId), (∀ n ∈ ns, n.id ≠ i) →
        (HashMapRepo.new.putList ns).get i = .ok none) ∧
      (∀ (r : HashMapRepo) (i : NodeId), ∃ o, r.get i = .ok o) := by
  constructor
  · intro ns i h
    show Except.ok (List.lookup i (HashMapRepo.new.putList ns).repo) =
      .ok none
    rw [putList_lookup_none ns HashMapRepo.new i rfl h]
  · intro r i
    exact ⟨_, rfl⟩

/-- C9 witness: id 0 was never put (only id 1 was), and `get 0` returns
`Ok(None)`; `get` of an arbitrary id on the fresh repository is some `Ok`
value. -/
theorem c9_witness :
    (HashMapRepo.new.putList [Node.new 1 (.String "aaa")]).get 0 =
        .ok none ∧
      ∃ o, HashMapRepo.new.get 5 = .ok o :=
  ⟨c9_get_absent_is_ok_none_and_get_never_errors.1
      [Node.new 1 (.String "aaa")] 0 (by simp [Node.new]),
    c9_get_absent_is_ok_none_and_get_never_errors.2 HashMapRepo.new 5⟩

/-- C10: on a freshly constructed `HashMapRepo` with no `put`, `traverse`
fails with `UnknownNodeId(0)` for every filter: the missing root itself is
popped, marked visited, and its lookup is absent. -/
theorem c10_traverse_of_empty_repo_reports_root :
    ∀ f : Finset String → Bool,
      HashMapRepo.new.traverse f = .error (.UnknownNodeId 0) := by
  intro f
  simp [HashMapRepo.traverse, HashMapRepo.new, traverseAux, List.lookup]

end Nodes
